import Mathlib

/-!
Verification of the serve-videos file-index subsystem (src/main.go).

The development shallowly embeds the pieces of the program the claims are
about: the directory scanner getFiles, the watch-loop rescan step, the
binary-search path resolver of the GET /raw/ handler, the percent-decoding
of request paths, and the cache-header policy. Strings are modelled as Lean
strings; Go compares strings byte by byte, and for valid UTF-8 data the
code-point order used here coincides with the byte order.
-/

set_option linter.unusedVariables false

deriving instance DecidableEq for Except

namespace ServeVideos

/-- Bytewise lexicographic comparison of character sequences, as Go compares
strings in sort.Strings and sort.SearchStrings. For valid UTF-8, comparing
code points yields the same order as comparing encoded bytes. -/
def leList : List Char → List Char → Bool
  | [], _ => true
  | _ :: _, [] => false
  | a :: as, b :: bs => if a < b then true else if b < a then false else leList as bs

/-- Go string comparison a <= b. -/
def strLe (a b : String) : Bool := leList a.data b.data

/-- The ordering relation on index entries: Go string comparison. -/
def strLeRel : String → String → Prop := fun a b => strLe a b = true

instance strLeRel.decRel : DecidableRel strLeRel :=
  fun a b => inferInstanceAs (Decidable (strLe a b = true))

/-- Entry visited by the filepath.WalkDir callback inside getFiles
(src/main.go lines 161 to 176): the walked path, whether it is a directory,
whether registering the directory with the watcher fails (the error of
w.Add, which is only logged), and whether WalkDir reports a walk error for
this entry (the err argument, which the callback never reads). -/
structure WalkEntry where
  path : String
  isDir : Bool
  addWatchFails : Bool
  walkErr : Bool
deriving DecidableEq

/-- Go strings.HasSuffix(s, suffix). -/
def hasSuffix (s sfx : String) : Bool := sfx.data.isSuffixOf s.data

/-- The extension loop of getFiles (src/main.go lines 168 to 173): try each
configured extension in order against the walked path with
strings.HasSuffix, stopping at the first match. -/
def extMatch (exts : List String) (path : String) : Bool :=
  match exts with
  | [] => false
  | ext :: rest => if hasSuffix path ext then true else extMatch rest path

/-- Root-relative path of a walked file: path[offset:] with
offset = len(root)+1 (src/main.go lines 160 and 170). -/
def relPath (root path : String) : String :=
  String.mk (path.data.drop (root.data.length + 1))

/-- Statement that path lies below root: its first len(root)+1 characters
are root followed by the path separator. Every file path filepath.WalkDir
hands to the callback has this form. -/
def underRoot (root path : String) : Prop :=
  path.data.take (root.data.length + 1) = root.data ++ ['/']

instance underRoot.dec (root path : String) : Decidable (underRoot root path) :=
  inferInstanceAs (Decidable (_ = _))

/-- The file accumulation of the WalkDir callback in getFiles
(src/main.go lines 159 to 176), in walk order: directory entries only
register watches, file entries are appended when the extension loop
matches. -/
def collectFiles (root : String) (walk : List WalkEntry) (exts : List String) : List String :=
  match walk with
  | [] => []
  | e :: rest =>
    if e.isDir then collectFiles root rest exts
    else if extMatch exts e.path then
      relPath root e.path :: collectFiles root rest exts
    else collectFiles root rest exts

/-- getFiles (src/main.go lines 154 to 180). newWatcherOk models whether
fsnotify.NewWatcher succeeds; on failure getFiles returns the error before
walking. Otherwise the walked files are collected and sorted with
sort.Strings; Go string order is total and antisymmetric, so the sorted
permutation is unique and insertion sort produces exactly it. Watch
registration failures and walk errors are ignored: the callback always
returns nil and the WalkDir return value is discarded. -/
def getFiles (newWatcherOk : Bool) (root : String) (walk : List WalkEntry)
    (exts : List String) : Except String (List String) :=
  if newWatcherOk then
    Except.ok (List.insertionSort strLeRel (collectFiles root walk exts))
  else
    Except.error "failed to create a watcher"

/-- sort.Search from the Go sort package: binary search for the least index
in the interval from i to j at which f holds. The fuel argument is only a
termination device: the Go loop runs while i < j and j - i strictly
decreases each iteration, so any fuel of at least j - i reproduces the loop
exactly; searchAux_spec assumes no more than that. -/
def searchAux (f : Nat → Bool) : Nat → Nat → Nat → Nat
  | 0, i, _ => i
  | fuel + 1, i, j =>
    if i < j then
      if f ((i + j) / 2) then searchAux f fuel i ((i + j) / 2)
      else searchAux f fuel ((i + j) / 2 + 1) j
    else i

/-- sort.Search(n, f), starting from the full interval with sufficient
fuel. -/
def goSearch (n : Nat) (f : Nat → Bool) : Nat := searchAux f n 0 n

/-- sort.SearchStrings(a, x): least index i with a[i] >= x
(src/main.go line 252). -/
def searchStrings (a : List String) (x : String) : Nat :=
  goSearch a.length (fun i => strLe x (a.getD i ""))

/-- The membership check of the GET /raw/ handler (src/main.go lines 252
and 253): i := sort.SearchStrings(files, f); found := i < len(files) &&
files[i] == f. -/
def resolveFound (files : List String) (f : String) : Bool :=
  let i := searchStrings files f
  decide (i < files.length) && (files.getD i "" == f)

/-- Value of a hexadecimal digit character, as the unhex helper of net/url
computes it. -/
def hexVal (c : Char) : Nat :=
  if c.isDigit then c.toNat - 48
  else if 97 ≤ c.toNat then c.toNat - 97 + 10
  else c.toNat - 65 + 10

/-- Whether a character is a hexadecimal digit, as the ishex helper of
net/url tests it. -/
def isHex (c : Char) : Bool :=
  decide ((48 ≤ c.toNat ∧ c.toNat ≤ 57) ∨ (97 ≤ c.toNat ∧ c.toNat ≤ 102) ∨
    (65 ≤ c.toNat ∧ c.toNat ≤ 70))

/-- url.QueryUnescape (called at src/main.go line 244): percent escapes are
decoded and plus signs become spaces; a malformed or truncated percent
escape fails the whole decode. Characters stand for decoded bytes. -/
def queryUnescape : List Char → Option (List Char)
  | [] => some []
  | c :: rest =>
    if c = '%' then
      match rest with
      | a :: b :: rest2 =>
        if isHex a && isHex b then
          (queryUnescape rest2).map (fun t => Char.ofNat (16 * hexVal a + hexVal b) :: t)
        else none
      | _ => none
    else if c = '+' then (queryUnescape rest).map (fun t => (' ' : Char) :: t)
    else (queryUnescape rest).map (fun t => c :: t)

/-- Percent-decoding as the HTTP layer applies it to the request target to
produce req.URL.Path before the handler at src/main.go line 243 runs
(net/url path mode): percent escapes are decoded, plus signs are kept
verbatim. -/
def pathUnescape : List Char → Option (List Char)
  | [] => some []
  | c :: rest =>
    if c = '%' then
      match rest with
      | a :: b :: rest2 =>
        if isHex a && isHex b then
          (pathUnescape rest2).map (fun t => Char.ofNat (16 * hexVal a + hexVal b) :: t)
        else none
      | _ => none
    else (pathUnescape rest).map (fun t => c :: t)

/-- Observable outcome of the GET /raw/ handler: status, the cache-related
headers it sets, and which index entry it serves. -/
structure RawResponse where
  status : Nat
  cacheControl : Option String
  pragma : Option String
  expires : Option String
  served : Option String
deriving DecidableEq

/-- The not-found-class reply http.Error(w, "Invalid path", 404). -/
def notFoundResponse : RawResponse :=
  { status := 404, cacheControl := none, pragma := none, expires := none, served := none }

/-- The GET /raw/ handler (src/main.go lines 243 to 270) as a function of
the published index and req.URL.Path: query-unescape the path (404 on
failure), strip the five bytes of the /raw/ route, binary-search the index
(404 on miss), then set cache headers by the .m3u8 suffix rule and serve
the looked-up file. -/
def rawHandler (files : List String) (urlPath : String) : RawResponse :=
  match queryUnescape urlPath.data with
  | none => notFoundResponse
  | some p =>
    let f : String := String.mk (p.drop 5)
    if resolveFound files f then
      if hasSuffix f ".m3u8" then
        { status := 200,
          cacheControl := some "no-store, no-cache, must-revalidate, max-age=0",
          pragma := some "no-cache", expires := some "0", served := some f }
      else
        { status := 200, cacheControl := some "public, max-age=86400",
          pragma := none, expires := none, served := some f }
    else notFoundResponse

/-- Full decode pipeline for a GET /raw/ request target: the HTTP layer
derives req.URL.Path by path-mode percent-decoding, then the handler runs.
A none result means the target does not parse into a URL path at all. -/
def servePipeline (files : List String) (rawPath : String) : Option RawResponse :=
  (pathUnescape rawPath.data).map (fun p => rawHandler files (String.mk p))

/-- One iteration of the watch goroutine (src/main.go lines 228 to 239)
after an event arrives: wat2, files2, _ := getFiles(root, extsArg) discards
the error and files = files2 publishes the returned slice unconditionally.
When getFiles fails it returns a nil slice, so the published index becomes
empty; the previously published index is the first argument and is never
consulted. -/
def watchStep (published : List String) (newWatcherOk : Bool) (root : String)
    (walk : List WalkEntry) (exts : List String) : List String :=
  match getFiles newWatcherOk root walk exts with
  | Except.ok files2 => files2
  | Except.error _ => []

/-- Extension set used for scanning (src/main.go lines 209 to 211): the
repeatable -e flags, or the fixed default list when none were supplied. -/
def effectiveExts (extsArg : List String) : List String :=
  if extsArg.isEmpty then ["m3u8", "mkv", "mp4", "ts"] else extsArg

/-- Name of a walked entry: the final slash-separated component of its
path, as fs.DirEntry.Name() reports it. -/
def baseName (path : String) : String :=
  String.mk ((path.data.reverse.takeWhile (fun c => c != '/')).reverse)

theorem leList_cons_iff (a b : Char) (as bs : List Char) :
    leList (a :: as) (b :: bs) = true ↔ a < b ∨ (a = b ∧ leList as bs = true) := by
  show (if a < b then true else if b < a then false else leList as bs) = true ↔ _
  split_ifs with h1 h2
  · simp [h1]
  · simp [h1, h2, (ne_of_gt h2)]
  · have hab : a = b := le_antisymm (not_lt.mp h2) (not_lt.mp h1)
    simp [hab, lt_irrefl]

theorem leList_refl (as : List Char) : leList as as = true := by
  induction as with
  | nil => rfl
  | cons a as ih => rw [leList_cons_iff]; exact Or.inr ⟨rfl, ih⟩

theorem leList_total : ∀ as bs : List Char, leList as bs = true ∨ leList bs as = true
  | [], _ => Or.inl rfl
  | _ :: _, [] => Or.inr rfl
  | a :: as, b :: bs => by
    rw [leList_cons_iff, leList_cons_iff]
    rcases lt_trichotomy a b with h | h | h
    · exact Or.inl (Or.inl h)
    · rcases leList_total as bs with h2 | h2
      · exact Or.inl (Or.inr ⟨h, h2⟩)
      · exact Or.inr (Or.inr ⟨h.symm, h2⟩)
    · exact Or.inr (Or.inl h)

theorem leList_trans : ∀ as bs cs : List Char,
    leList as bs = true → leList bs cs = true → leList as cs = true
  | [], _, _, _, _ => rfl
  | _ :: _, [], _, h1, _ => by simp [leList] at h1
  | _ :: _, _ :: _, [], _, h2 => by simp [leList] at h2
  | a :: as, b :: bs, c :: cs, h1, h2 => by
    rw [leList_cons_iff] at h1 h2 ⊢
    rcases h1 with h1 | ⟨h1e, h1r⟩
    · rcases h2 with h2 | ⟨h2e, h2r⟩
      · exact Or.inl (lt_trans h1 h2)
      · exact Or.inl (h2e ▸ h1)
    · rcases h2 with h2 | ⟨h2e, h2r⟩
      · exact Or.inl (h1e ▸ h2)
      · exact Or.inr ⟨h1e.trans h2e, leList_trans as bs cs h1r h2r⟩

theorem leList_antisymm : ∀ as bs : List Char,
    leList as bs = true → leList bs as = true → as = bs
  | [], [], _, _ => rfl
  | [], _ :: _, _, h2 => by simp [leList] at h2
  | _ :: _, [], h1, _ => by simp [leList] at h1
  | a :: as, b :: bs, h1, h2 => by
    rw [leList_cons_iff] at h1 h2
    rcases h1 with h1 | ⟨h1e, h1r⟩
    · rcases h2 with h2 | ⟨h2e, h2r⟩
      · exact absurd h1 (lt_asymm h2)
      · exact absurd h1 (h2e ▸ lt_irrefl b)
    · rcases h2 with h2 | ⟨h2e, h2r⟩
      · exact absurd h2 (h1e ▸ lt_irrefl a)
      · rw [h1e, leList_antisymm as bs h1r h2r]

theorem strLe_refl (a : String) : strLe a a = true := leList_refl a.data

theorem strLe_total (a b : String) : strLe a b = true ∨ strLe b a = true :=
  leList_total a.data b.data

theorem strLe_trans {a b c : String} (h1 : strLe a b = true) (h2 : strLe b c = true) :
    strLe a c = true := leList_trans a.data b.data c.data h1 h2

theorem strLe_antisymm {a b : String} (h1 : strLe a b = true) (h2 : strLe b a = true) :
    a = b := by
  have h := leList_antisymm a.data b.data h1 h2
  cases a; cases b; exact congrArg String.mk h

theorem searchAux_spec (f : Nat → Bool) (n : Nat)
    (hmono : ∀ k l : Nat, k ≤ l → l < n → f k = true → f l = true) :
    ∀ fuel i j : Nat, i ≤ j → j ≤ n → j - i ≤ fuel →
      (∀ k, k < i → f k = false) → (∀ k, j ≤ k → k < n → f k = true) →
      i ≤ searchAux f fuel i j ∧ searchAux f fuel i j ≤ j ∧
        (∀ k, k < searchAux f fuel i j → f k = false) ∧
        (∀ k, searchAux f fuel i j ≤ k → k < n → f k = true) := by
  intro fuel
  induction fuel with
  | zero =>
    intro i j hij hjn hfuel hlow hhigh
    have hji : i = j := by omega
    subst hji
    exact ⟨le_refl i, le_refl i, hlow, fun k hk => hhigh k hk⟩
  | succ fuel ih =>
    intro i j hij hjn hfuel hlow hhigh
    by_cases hlt : i < j
    · have hm1 : i ≤ (i + j) / 2 := by omega
      have hm2 : (i + j) / 2 < j := by omega
      cases hf : f ((i + j) / 2) with
      | true =>
        have hrec := ih i ((i + j) / 2) hm1 (by omega) (by omega) hlow
          (fun k hk1 hk2 => hmono ((i + j) / 2) k hk1 hk2 hf)
        have heq : searchAux f (fuel + 1) i j = searchAux f fuel i ((i + j) / 2) := by
          simp [searchAux, hlt, hf]
        rw [heq]
        exact ⟨hrec.1, le_trans hrec.2.1 (le_of_lt hm2), hrec.2.2⟩
      | false =>
        have hlow2 : ∀ k, k < (i + j) / 2 + 1 → f k = false := by
          intro k hk
          by_cases hki : k < i
          · exact hlow k hki
          · cases hfk : f k with
            | true =>
              have := hmono k ((i + j) / 2) (by omega) (by omega) hfk
              rw [hf] at this
              exact absurd this (by simp)
            | false => rfl
        have hrec := ih ((i + j) / 2 + 1) j (by omega) hjn (by omega) hlow2 hhigh
        have heq : searchAux f (fuel + 1) i j = searchAux f fuel ((i + j) / 2 + 1) j := by
          simp [searchAux, hlt, hf]
        rw [heq]
        exact ⟨by omega, hrec.2.1, hrec.2.2⟩
    · have hji : i = j := by omega
      subst hji
      simp only [searchAux, if_neg hlt]
      exact ⟨le_refl i, le_refl i, hlow, fun k hk => hhigh k hk⟩

theorem goSearch_spec (f : Nat → Bool) (n : Nat)
    (hmono : ∀ k l : Nat, k ≤ l → l < n → f k = true → f l = true) :
    goSearch n f ≤ n ∧ (∀ k, k < goSearch n f → f k = false) ∧
      (∀ k, goSearch n f ≤ k → k < n → f k = true) := by
  have h := searchAux_spec f n hmono n 0 n (Nat.zero_le n) (le_refl n)
    (by omega) (fun k hk => absurd hk (Nat.not_lt_zero k)) (fun k hk1 hk2 => absurd hk1 (by omega))
  exact ⟨h.2.1, h.2.2.1, h.2.2.2⟩

theorem sorted_getD_le {l : List String} (hs : List.Sorted strLeRel l)
    {k m : Nat} (hkm : k ≤ m) (hm : m < l.length) :
    strLe (l.getD k "") (l.getD m "") = true := by
  haveI : IsRefl String strLeRel := ⟨strLe_refl⟩
  have hk : k < l.length := lt_of_le_of_lt hkm hm
  rw [List.getD_eq_getElem l "" hk, List.getD_eq_getElem l "" hm]
  exact hs.rel_get_of_le (a := ⟨k, hk⟩) (b := ⟨m, hm⟩) hkm

theorem resolveFound_mem (files : List String) (f : String)
    (hs : List.Sorted strLeRel files) :
    resolveFound files f = true ↔ f ∈ files := by
  have hmono : ∀ k l : Nat, k ≤ l → l < files.length →
      strLe f (files.getD k "") = true → strLe f (files.getD l "") = true :=
    fun k l hkl hl hk => strLe_trans hk (sorted_getD_le hs hkl hl)
  have hspec := goSearch_spec (fun i => strLe f (files.getD i "")) files.length hmono
  show (decide (goSearch files.length (fun i => strLe f (files.getD i "")) < files.length) &&
      (files.getD (goSearch files.length (fun i => strLe f (files.getD i ""))) "" == f)) = true
      ↔ f ∈ files
  set r := goSearch files.length (fun i => strLe f (files.getD i "")) with hr
  constructor
  · intro h
    rw [Bool.and_eq_true] at h
    obtain ⟨h1, h2⟩ := h
    have hlen : r < files.length := of_decide_eq_true h1
    have heq : files.getD r "" = f := eq_of_beq h2
    rw [← heq, List.getD_eq_getElem files "" hlen]
    exact List.getElem_mem hlen
  · intro hmem
    obtain ⟨⟨tv, htv⟩, ht⟩ := List.mem_iff_get.mp hmem
    rw [List.get_eq_getElem] at ht
    have hft : strLe f (files.getD tv "") = true := by
      rw [List.getD_eq_getElem files "" htv, ht]
      exact strLe_refl f
    have hrt : r ≤ tv := by
      by_contra hc
      push_neg at hc
      have hfalse := hspec.2.1 tv hc
      simp only at hfalse
      rw [hft] at hfalse
      exact absurd hfalse (by simp)
    have hrn : r < files.length := lt_of_le_of_lt hrt htv
    have hfr : strLe f (files.getD r "") = true := hspec.2.2 r (le_refl r) hrn
    have hrf : strLe (files.getD r "") f = true := by
      have h := sorted_getD_le hs hrt htv
      rw [List.getD_eq_getElem files "" htv, ht] at h
      exact h
    have heq : files.getD r "" = f := strLe_antisymm hrf hfr
    rw [Bool.and_eq_true]
    exact ⟨decide_eq_true hrn, beq_iff_eq.mpr heq⟩

theorem mem_collectFiles (root : String) (walk : List WalkEntry) (exts : List String)
    (x : String) :
    x ∈ collectFiles root walk exts ↔
      ∃ e, e ∈ walk ∧ e.isDir = false ∧ extMatch exts e.path = true ∧
        x = relPath root e.path := by
  induction walk with
  | nil => simp [collectFiles]
  | cons e rest ih =>
    cases hd : e.isDir with
    | true =>
      have hsteq : collectFiles root (e :: rest) exts = collectFiles root rest exts := by
        simp [collectFiles, hd]
      rw [hsteq, ih]
      constructor
      · rintro ⟨e2, h1, h2, h3, h4⟩
        exact ⟨e2, List.mem_cons_of_mem e h1, h2, h3, h4⟩
      · rintro ⟨e2, h1, h2, h3, h4⟩
        rcases List.mem_cons.mp h1 with rfl | h1
        · rw [hd] at h2; exact absurd h2 (by simp)
        · exact ⟨e2, h1, h2, h3, h4⟩
    | false =>
      cases hm : extMatch exts e.path with
      | true =>
        have hsteq : collectFiles root (e :: rest) exts =
            relPath root e.path :: collectFiles root rest exts := by
          simp [collectFiles, hd, hm]
        rw [hsteq, List.mem_cons, ih]
        constructor
        · rintro (rfl | ⟨e2, h1, h2, h3, h4⟩)
          · exact ⟨e, List.mem_cons_self e rest, hd, hm, rfl⟩
          · exact ⟨e2, List.mem_cons_of_mem e h1, h2, h3, h4⟩
        · rintro ⟨e2, h1, h2, h3, h4⟩
          rcases List.mem_cons.mp h1 with rfl | h1
          · exact Or.inl h4
          · exact Or.inr ⟨e2, h1, h2, h3, h4⟩
      | false =>
        have hsteq : collectFiles root (e :: rest) exts = collectFiles root rest exts := by
          simp [collectFiles, hd, hm]
        rw [hsteq, ih]
        constructor
        · rintro ⟨e2, h1, h2, h3, h4⟩
          exact ⟨e2, List.mem_cons_of_mem e h1, h2, h3, h4⟩
        · rintro ⟨e2, h1, h2, h3, h4⟩
          rcases List.mem_cons.mp h1 with rfl | h1
          · rw [hm] at h3; exact absurd h3 (by simp)
          · exact ⟨e2, h1, h2, h3, h4⟩

theorem relPath_inj (root p1 p2 : String)
    (h1 : underRoot root p1) (h2 : underRoot root p2)
    (h : relPath root p1 = relPath root p2) : p1 = p2 := by
  have hd : p1.data.drop (root.data.length + 1) = p2.data.drop (root.data.length + 1) := by
    have := congrArg String.data h
    simpa [relPath] using this
  have e1 : p1.data = p1.data.take (root.data.length + 1) ++
      p1.data.drop (root.data.length + 1) := (List.take_append_drop _ _).symm
  have e2 : p2.data = p2.data.take (root.data.length + 1) ++
      p2.data.drop (root.data.length + 1) := (List.take_append_drop _ _).symm
  have hdata : p1.data = p2.data := by
    rw [e1, e2, h1, h2, hd]
  cases p1; cases p2; exact congrArg String.mk hdata

theorem nodup_collectFiles (root : String) (walk : List WalkEntry) (exts : List String)
    (hpaths : (walk.map WalkEntry.path).Nodup)
    (hroot : ∀ e ∈ walk, e.isDir = false → underRoot root e.path) :
    (collectFiles root walk exts).Nodup := by
  induction walk with
  | nil => simp [collectFiles]
  | cons e rest ih =>
    rw [List.map_cons, List.nodup_cons] at hpaths
    have ihr := ih hpaths.2 (fun e2 he2 => hroot e2 (List.mem_cons_of_mem e he2))
    cases hd : e.isDir with
    | true => simpa [collectFiles, hd] using ihr
    | false =>
      cases hm : extMatch exts e.path with
      | true =>
        have hsteq : collectFiles root (e :: rest) exts =
            relPath root e.path :: collectFiles root rest exts := by
          simp [collectFiles, hd, hm]
        rw [hsteq, List.nodup_cons]
        refine ⟨fun hmem => ?_, ihr⟩
        obtain ⟨e2, he2, hd2, _, heq⟩ := (mem_collectFiles root rest exts _).mp hmem
        have hpeq : e.path = e2.path :=
          relPath_inj root e.path e2.path
            (hroot e (List.mem_cons_self e rest) hd)
            (hroot e2 (List.mem_cons_of_mem e he2) hd2) heq
        exact hpaths.1 (hpeq ▸ List.mem_map_of_mem WalkEntry.path he2)
      | false => simpa [collectFiles, hd, hm] using ihr

theorem collectFiles_congr (root : String) (exts : List String) :
    ∀ walk1 walk2 : List WalkEntry,
      walk1.map (fun e => (e.path, e.isDir)) = walk2.map (fun e => (e.path, e.isDir)) →
      collectFiles root walk1 exts = collectFiles root walk2 exts
  | [], [], _ => rfl
  | [], _ :: _, h => by simp at h
  | _ :: _, [], h => by simp at h
  | e1 :: r1, e2 :: r2, h => by
    simp only [List.map_cons, List.cons.injEq, Prod.mk.injEq] at h
    obtain ⟨⟨hp, hd⟩, ht⟩ := h
    have hrec := collectFiles_congr root exts r1 r2 ht
    simp only [collectFiles, hp, hd, hrec]

theorem queryUnescape_cons_ne (c : Char) (rest : List Char) (hc : ¬ c = '%') :
    queryUnescape (c :: rest) =
      if c = '+' then (queryUnescape rest).map (fun t => (' ' : Char) :: t)
      else (queryUnescape rest).map (fun t => c :: t) := by
  cases rest with
  | nil => simp only [queryUnescape, if_neg hc]
  | cons r1 rest1 =>
    cases rest1 with
    | nil => simp only [queryUnescape, if_neg hc]
    | cons r2 rest2 => simp only [queryUnescape, if_neg hc]

theorem queryUnescape_no_plus : ∀ s t : List Char, '%' ∉ s →
    queryUnescape s = some t → '+' ∉ t := by
  intro s
  induction s with
  | nil =>
    intro t _ ht
    have hte : t = [] := by simpa [queryUnescape] using ht.symm
    subst hte
    simp
  | cons c rest ih =>
    intro t hnp ht
    have hc : ¬ c = '%' := fun h => hnp (by rw [h]; exact List.mem_cons_self _ _)
    have hnp2 : '%' ∉ rest := fun hm => hnp (List.mem_cons_of_mem c hm)
    rw [queryUnescape_cons_ne c rest hc] at ht
    by_cases hcp : c = '+'
    · rw [if_pos hcp] at ht
      cases hq : queryUnescape rest with
      | none => rw [hq] at ht; simp at ht
      | some t2 =>
        rw [hq] at ht
        simp only [Option.map] at ht
        injection ht with hteq
        subst hteq
        intro hmem
        rcases List.mem_cons.mp hmem with h | h
        · exact absurd h (by decide)
        · exact ih t2 hnp2 hq h
    · rw [if_neg hcp] at ht
      cases hq : queryUnescape rest with
      | none => rw [hq] at ht; simp at ht
      | some t2 =>
        rw [hq] at ht
        simp only [Option.map] at ht
        injection ht with hteq
        subst hteq
        intro hmem
        rcases List.mem_cons.mp hmem with h | h
        · exact hcp h.symm
        · exact ih t2 hnp2 hq h

/-- C1: for every request path f and every sorted published index, the
binary-search membership test of the GET /raw/ handler reports found
exactly when f is byte-for-byte equal to an entry of the index, so
traversal strings such as ../secret and any path not in the index are
rejected with not-found. -/
theorem C1_resolve_found_iff_mem (files : List String) (f : String)
    (hs : List.Sorted strLeRel files) :
    resolveFound files f = true ↔ f ∈ files :=
  resolveFound_mem files f hs

/-- Witness for C1 at a concrete sorted index and the traversal string
../secret, which binary search rejects because it is not an entry. -/
theorem C1_resolve_found_iff_mem_witness :
    List.Sorted strLeRel ["a.mp4", "b.mkv"] ∧
      (resolveFound ["a.mp4", "b.mkv"] "../secret" = true ↔
        "../secret" ∈ ["a.mp4", "b.mkv"]) :=
  ⟨by decide, C1_resolve_found_iff_mem ["a.mp4", "b.mkv"] "../secret" (by decide)⟩

/-- C2, evaluated at the failing input: when the rescan triggered by an
event fails (watcher creation fails), the watch goroutine publishes the nil
file list that getFiles returned along with its discarded error, so the
published index becomes empty instead of staying the last-known-good
["a.mp4"]. -/
theorem C2_watch_failure_publishes_empty :
    watchStep ["a.mp4"] false "/videos"
        [⟨"/videos", true, false, false⟩, ⟨"/videos/a.mp4", false, false, false⟩]
        ["m3u8", "mkv", "mp4", "ts"] = [] ∧
      ([] : List String) ≠ ["a.mp4"] := by decide

/-- C5: getFiles returns an error exactly when the watch subsystem cannot
be initialized; the walk entries, which carry arbitrary per-directory watch
registration failures and walk errors, can never produce one. -/
theorem C5_getFiles_error_iff (newWatcherOk : Bool) (root : String)
    (walk : List WalkEntry) (exts : List String) :
    (∃ msg, getFiles newWatcherOk root walk exts = Except.error msg) ↔
      newWatcherOk = false := by
  cases newWatcherOk <;> simp [getFiles]

/-- C7: a request path whose query-unescaping fails yields the 404
not-found reply, and the reply is computed without consulting the index at
all: it is the same for every pair of indexes. -/
theorem C7_bad_escape_404 (files files2 : List String) (urlPath : String)
    (hdec : queryUnescape urlPath.data = none) :
    rawHandler files urlPath = notFoundResponse ∧
      rawHandler files urlPath = rawHandler files2 urlPath := by
  unfold rawHandler
  rw [hdec]
  exact ⟨rfl, rfl⟩

/-- Witness for C7 at the malformed escape /raw/a%zz.mp4. -/
theorem C7_bad_escape_404_witness :
    queryUnescape ("/raw/a%zz.mp4" : String).data = none ∧
      rawHandler ["a.mp4"] "/raw/a%zz.mp4" = notFoundResponse ∧
      rawHandler ["a.mp4"] "/raw/a%zz.mp4" = rawHandler [] "/raw/a%zz.mp4" :=
  ⟨by decide,
    (C7_bad_escape_404 ["a.mp4"] [] "/raw/a%zz.mp4" (by decide)).1,
    (C7_bad_escape_404 ["a.mp4"] [] "/raw/a%zz.mp4" (by decide)).2⟩

/-- C8: the scan result is a function of the filesystem snapshot alone: two
walks over the same tree (same paths and kinds), no matter how watch
registration or walk-error reporting went on each, give identical
FileIndexes. Scanning an unchanged tree twice is the special case of equal
snapshots. -/
theorem C8_scan_deterministic (ok : Bool) (root : String) (exts : List String)
    (walk1 walk2 : List WalkEntry)
    (hsame : walk1.map (fun e => (e.path, e.isDir)) =
      walk2.map (fun e => (e.path, e.isDir))) :
    getFiles ok root walk1 exts = getFiles ok root walk2 exts := by
  unfold getFiles
  rw [collectFiles_congr root exts walk1 walk2 hsame]

/-- Witness for C8: two scans of the same single-file tree, the second with
a failing watch registration and a reported walk error, agree. -/
theorem C8_scan_deterministic_witness :
    ([⟨"r/a.mp4", false, false, false⟩] : List WalkEntry).map (fun e => (e.path, e.isDir)) =
      ([⟨"r/a.mp4", false, true, true⟩] : List WalkEntry).map (fun e => (e.path, e.isDir)) ∧
      getFiles true "r" [⟨"r/a.mp4", false, false, false⟩] ["m3u8", "mkv", "mp4", "ts"] =
        getFiles true "r" [⟨"r/a.mp4", false, true, true⟩] ["m3u8", "mkv", "mp4", "ts"] :=
  ⟨by decide,
    C8_scan_deterministic true "r" ["m3u8", "mkv", "mp4", "ts"]
      [⟨"r/a.mp4", false, false, false⟩] [⟨"r/a.mp4", false, true, true⟩] (by decide)⟩

/-- C9: with no -e flags supplied, the extension set used for scanning is
exactly m3u8, mkv, mp4, ts in that order. -/
theorem C9_default_exts : effectiveExts [] = ["m3u8", "mkv", "mp4", "ts"] := rfl

/-- C3: every index produced by a successful scan is sorted ascending in Go
byte order and duplicate-free, for any walk that visits pairwise distinct
paths and whose file entries all lie below the root. -/
theorem C3_getFiles_sorted_nodup (root : String) (walk : List WalkEntry)
    (exts : List String) (files : List String)
    (hpaths : (walk.map WalkEntry.path).Nodup)
    (hroot : ∀ e ∈ walk, e.isDir = false → underRoot root e.path)
    (hok : getFiles true root walk exts = Except.ok files) :
    List.Sorted strLeRel files ∧ files.Nodup := by
  haveI : IsTotal String strLeRel := ⟨strLe_total⟩
  haveI : IsTrans String strLeRel := ⟨fun _ _ _ => strLe_trans⟩
  have hfe : files = List.insertionSort strLeRel (collectFiles root walk exts) := by
    simpa [getFiles] using hok.symm
  constructor
  · rw [hfe]
    exact List.sorted_insertionSort strLeRel _
  · rw [hfe]
    exact (List.perm_insertionSort strLeRel _).nodup_iff.mpr
      (nodup_collectFiles root walk exts hpaths hroot)

/-- Witness for C3 on a concrete walk of two files visited in reverse
order: the published index comes out sorted and duplicate-free. -/
theorem C3_getFiles_sorted_nodup_witness :
    ((([⟨"r", true, false, false⟩, ⟨"r/b.mkv", false, false, false⟩,
          ⟨"r/a.mp4", false, false, false⟩] : List WalkEntry).map WalkEntry.path).Nodup ∧
      (∀ e ∈ ([⟨"r", true, false, false⟩, ⟨"r/b.mkv", false, false, false⟩,
          ⟨"r/a.mp4", false, false, false⟩] : List WalkEntry),
        e.isDir = false → underRoot "r" e.path) ∧
      getFiles true "r" [⟨"r", true, false, false⟩, ⟨"r/b.mkv", false, false, false⟩,
          ⟨"r/a.mp4", false, false, false⟩] ["m3u8", "mkv", "mp4", "ts"] =
        Except.ok ["a.mp4", "b.mkv"]) ∧
      (List.Sorted strLeRel ["a.mp4", "b.mkv"] ∧ (["a.mp4", "b.mkv"] : List String).Nodup) :=
  ⟨⟨by decide, by decide, by decide⟩,
    C3_getFiles_sorted_nodup "r" [⟨"r", true, false, false⟩, ⟨"r/b.mkv", false, false, false⟩,
        ⟨"r/a.mp4", false, false, false⟩] ["m3u8", "mkv", "mp4", "ts"] ["a.mp4", "b.mkv"]
      (by decide) (by decide) (by decide)⟩

/-- C4 counterexample: the code matches extensions as suffixes of the whole
walked path, not of the file name. With extension list ["b/a.mp4"], the
walked file r/b/a.mp4 is included in the index although its name a.mp4 ends
with no configured extension, refuting inclusion-iff-name-suffix as
stated. -/
theorem C4_name_suffix_cex :
    getFiles true "r" [⟨"r", true, false, false⟩, ⟨"r/b/a.mp4", false, false, false⟩]
        ["b/a.mp4"] = Except.ok ["b/a.mp4"] ∧
      extMatch ["b/a.mp4"] (baseName "r/b/a.mp4") = false := by decide

/-- C4 amended: a visited file of the walk contributes its root-relative
path to the index exactly when the whole walked path ends with a configured
extension (ordered list, case-sensitive suffix match, first match wins),
and it contributes at most one entry. For extensions that do not span a
path separator this coincides with matching the file name. -/
theorem C4_getFiles_mem_iff (root : String) (walk : List WalkEntry)
    (exts : List String) (files : List String) (e : WalkEntry)
    (hpaths : (walk.map WalkEntry.path).Nodup)
    (hroot : ∀ e2 ∈ walk, e2.isDir = false → underRoot root e2.path)
    (he : e ∈ walk) (hfile : e.isDir = false)
    (hok : getFiles true root walk exts = Except.ok files) :
    (relPath root e.path ∈ files ↔ extMatch exts e.path = true) ∧
      files.count (relPath root e.path) ≤ 1 := by
  have hfe : files = List.insertionSort strLeRel (collectFiles root walk exts) := by
    simpa [getFiles] using hok.symm
  have hperm := List.perm_insertionSort strLeRel (collectFiles root walk exts)
  constructor
  · rw [hfe, hperm.mem_iff, mem_collectFiles]
    constructor
    · rintro ⟨e2, he2, hd2, hm2, heq⟩
      have hpe : e.path = e2.path :=
        relPath_inj root e.path e2.path (hroot e he hfile) (hroot e2 he2 hd2) heq
      rw [hpe]
      exact hm2
    · intro hm
      exact ⟨e, he, hfile, hm, rfl⟩
  · have hnd : files.Nodup := by
      rw [hfe]
      exact hperm.nodup_iff.mpr (nodup_collectFiles root walk exts hpaths hroot)
    exact List.nodup_iff_count_le_one.mp hnd _

/-- Witness for the amended C4 on a concrete walk. -/
theorem C4_getFiles_mem_iff_witness :
    ((([⟨"r", true, false, false⟩, ⟨"r/a.mp4", false, false, false⟩] : List WalkEntry).map
          WalkEntry.path).Nodup ∧
      (∀ e2 ∈ ([⟨"r", true, false, false⟩, ⟨"r/a.mp4", false, false, false⟩] : List WalkEntry),
        e2.isDir = false → underRoot "r" e2.path) ∧
      (⟨"r/a.mp4", false, false, false⟩ : WalkEntry) ∈
        ([⟨"r", true, false, false⟩, ⟨"r/a.mp4", false, false, false⟩] : List WalkEntry) ∧
      (⟨"r/a.mp4", false, false, false⟩ : WalkEntry).isDir = false ∧
      getFiles true "r" [⟨"r", true, false, false⟩, ⟨"r/a.mp4", false, false, false⟩]
          ["m3u8", "mkv", "mp4", "ts"] = Except.ok ["a.mp4"]) ∧
      ((relPath "r" "r/a.mp4" ∈ (["a.mp4"] : List String) ↔
          extMatch ["m3u8", "mkv", "mp4", "ts"] "r/a.mp4" = true) ∧
        (["a.mp4"] : List String).count (relPath "r" "r/a.mp4") ≤ 1) :=
  ⟨⟨by decide, by decide, by decide, by decide, by decide⟩,
    C4_getFiles_mem_iff "r" [⟨"r", true, false, false⟩, ⟨"r/a.mp4", false, false, false⟩]
      ["m3u8", "mkv", "mp4", "ts"] ["a.mp4"] ⟨"r/a.mp4", false, false, false⟩
      (by decide) (by decide) (by decide) (by decide) (by decide)⟩

/-- C6: for a found GET /raw/ request, the cache headers depend on the
.m3u8 suffix of the looked-up file: playlist files get the no-store,
no-cache directives and every other file gets the long public max-age. -/
theorem C6_cache_headers (files : List String) (urlPath : String) (p : List Char)
    (hdec : queryUnescape urlPath.data = some p)
    (hfound : resolveFound files (String.mk (p.drop 5)) = true) :
    (hasSuffix (String.mk (p.drop 5)) ".m3u8" = true →
        (rawHandler files urlPath).cacheControl =
          some "no-store, no-cache, must-revalidate, max-age=0") ∧
      (hasSuffix (String.mk (p.drop 5)) ".m3u8" = false →
        (rawHandler files urlPath).cacheControl = some "public, max-age=86400") := by
  unfold rawHandler
  rw [hdec]
  constructor
  · intro hsfx
    simp [hfound, hsfx]
  · intro hsfx
    simp [hfound, hsfx]

/-- Witness for C6 at a playlist request and an ordinary media request. -/
theorem C6_cache_headers_witness :
    (queryUnescape ("/raw/live.m3u8" : String).data = some ("/raw/live.m3u8" : String).data ∧
      resolveFound ["live.m3u8"] (String.mk (("/raw/live.m3u8" : String).data.drop 5)) = true ∧
      (rawHandler ["live.m3u8"] "/raw/live.m3u8").cacheControl =
        some "no-store, no-cache, must-revalidate, max-age=0") ∧
    (queryUnescape ("/raw/a.mp4" : String).data = some ("/raw/a.mp4" : String).data ∧
      resolveFound ["a.mp4"] (String.mk (("/raw/a.mp4" : String).data.drop 5)) = true ∧
      (rawHandler ["a.mp4"] "/raw/a.mp4").cacheControl = some "public, max-age=86400") :=
  ⟨⟨by decide, by decide,
      (C6_cache_headers ["live.m3u8"] "/raw/live.m3u8" ("/raw/live.m3u8" : String).data
        (by decide) (by decide)).1 (by decide)⟩,
    ⟨by decide, by decide,
      (C6_cache_headers ["a.mp4"] "/raw/a.mp4" ("/raw/a.mp4" : String).data
        (by decide) (by decide)).2 (by decide)⟩⟩

/-- C10 counterexample: with index entry a+b.mp4, the GET request target
/raw/a%2Bb.mp4, whose plus is percent-encoded exactly as the claim
prescribes, is still not matched: the HTTP layer decodes %2B back to a
plus, the handler query-unescapes that plus into a space, the lookup
misses, and the reply is the 404 not-found response. -/
theorem C10_percent_encoded_plus_cex :
    servePipeline ["a+b.mp4"] "/raw/a%2Bb.mp4" = some notFoundResponse := by decide

/-- C10 amended: the handler query-unescapes the server-decoded URL path,
so a plus reaches the lookup as a space whether the client sent it verbatim
or percent-encoded as %2B (both leave a percent-free URL path holding a
literal plus). Hence for every URL path without a percent character, an
index entry containing a plus is never the served file; only
double-encoding survives both decoders. -/
theorem C10_plus_entries_unreachable (files : List String) (e urlPath : String)
    (hplus : '+' ∈ e.data) (hnp : '%' ∉ urlPath.data) :
    (rawHandler files urlPath).served ≠ some e := by
  unfold rawHandler
  cases hq : queryUnescape urlPath.data with
  | none => simp [notFoundResponse]
  | some p =>
    have hp : '+' ∉ p := queryUnescape_no_plus urlPath.data p hnp hq
    have hfe : ¬ (String.mk (p.drop 5) = e) := by
      intro h
      apply hp
      apply List.mem_of_mem_drop (n := 5)
      rw [← h] at hplus
      exact hplus
    by_cases hfound : resolveFound files (String.mk (p.drop 5)) = true
    · by_cases hsfx : hasSuffix (String.mk (p.drop 5)) ".m3u8" = true
      · simp [hfound, hsfx, hfe]
      · simp [hfound, hsfx, hfe]
    · simp [hfound, notFoundResponse]

/-- Witness for the amended C10: the verbatim request /raw/a+b.mp4 cannot
serve the index entry a+b.mp4. -/
theorem C10_plus_entries_unreachable_witness :
    '+' ∈ ("a+b.mp4" : String).data ∧ '%' ∉ ("/raw/a+b.mp4" : String).data ∧
      (rawHandler ["a+b.mp4"] "/raw/a+b.mp4").served ≠ some "a+b.mp4" :=
  ⟨by decide, by decide,
    C10_plus_entries_unreachable ["a+b.mp4"] "a+b.mp4" "/raw/a+b.mp4"
      (by decide) (by decide)⟩

end ServeVideos
